import Mathlib

/-!
Shallow embedding of the client-site-analyzer repository
(src/sledgehammer_playwright.py and src/build_palette.py).

Python strings are modelled as `String` or `List Char`; calls into external
libraries (urllib.parse.urlparse, urllib.parse.urljoin, Python's per-process
salted str hash, the network and the filesystem) enter the definitions as
explicit function parameters, so every theorem quantifies over their behaviour.
-/

/-- Python slice `l[a:b]` for natural bounds (both clamped at the list length). -/
def pySlice (l : List Char) (a b : Nat) : List Char :=
  (l.take b).drop a

/-- Constant `CHUNK_OVERLAP = 800` from sledgehammer_playwright.py. -/
def CHUNK_OVERLAP : Nat := 800

/-- The text of the chunk whose loop counter is `i`:
`big[max(0, i-CHUNK_OVERLAP) : i+chunk_size]` (line 60); Nat subtraction is
exactly the `max(0, i-CHUNK_OVERLAP)` of the source. -/
def chunk_slice (big : List Char) (chunk_size i : Nat) : List Char :=
  pySlice big (i - CHUNK_OVERLAP) (i + chunk_size)

/-- The `while i < L` loop of `chunk_text` (lines 58-62), with fuel; `none`
models non-termination (which happens for `chunk_size = 0` and nonempty input).
Each iteration advances `i` by `chunk_size`, so `big.length + 1` fuel is enough
whenever `1 ≤ chunk_size`. A chunk dict `{"index": n, "text": s}` is the pair
`(n, s)`; as in the source, the index stored is `len(chunks)` at append time. -/
def chunkGo (big : List Char) (chunk_size : Nat) :
    Nat → Nat → List (Nat × List Char) → Option (List (Nat × List Char))
  | 0, i, acc => if i < big.length then none else some acc
  | fuel+1, i, acc =>
    if i < big.length then
      chunkGo big chunk_size fuel (i + chunk_size)
        (acc ++ [(acc.length, chunk_slice big chunk_size i)])
    else some acc

/-- `chunk_text(big, chunk_size)` from sledgehammer_playwright.py (lines 54-63). -/
def chunk_text (big : List Char) (chunk_size : Nat) :
    Option (List (Nat × List Char)) :=
  chunkGo big chunk_size (big.length + 1) 0 []

/-- `ceil(L / S)`, the chunk count claimed by the spec (meaningful for `S ≥ 1`). -/
def numChunks (L S : Nat) : Nat := (L + S - 1) / S

/-- Closed form of the list `chunk_text` builds when `chunk_size ≥ 1`:
chunk `j` covers loop counter `i = j * S`. -/
def chunkList (big : List Char) (S : Nat) : List (Nat × List Char) :=
  (List.range (numChunks big.length S)).map (fun j => (j, chunk_slice big S (j * S)))

theorem numChunks_le_iff {L S j : Nat} (hS : 1 ≤ S) :
    numChunks L S ≤ j ↔ L ≤ j * S := by
  unfold numChunks
  rw [Nat.div_le_iff_le_mul_add_pred (by omega), Nat.mul_comm S j]
  omega

theorem chunkGo_closed (big : List Char) (S : Nat) (hS : 1 ≤ S) :
    ∀ fuel j acc, big.length ≤ j * S + fuel * S → acc.length = j →
      chunkGo big S fuel (j * S) acc =
        some (acc ++ (List.range' j (numChunks big.length S - j)).map
          (fun t => (t, chunk_slice big S (t * S)))) := by
  intro fuel
  induction fuel with
  | zero =>
    intro j acc hle hlen
    have hnum : numChunks big.length S ≤ j := (numChunks_le_iff hS).mpr (by omega)
    have : numChunks big.length S - j = 0 := by omega
    simp [chunkGo, this, Nat.not_lt.mpr (by omega : big.length ≤ j * S)]
  | succ fuel ih =>
    intro j acc hle hlen
    by_cases h : j * S < big.length
    · have hj : j < numChunks big.length S := by
        by_contra hc
        exact absurd ((numChunks_le_iff hS).mp (Nat.le_of_not_lt hc)) (by omega)
      have hstep : j * S + S = (j + 1) * S := by ring
      have hfuel : (fuel + 1) * S = fuel * S + S := by ring
      have hrec := ih (j + 1) (acc ++ [(acc.length, chunk_slice big S (j * S))])
        (by omega) (by simp [hlen])
      rw [show (j+1) * S = j * S + S by ring] at hrec
      have hrange : numChunks big.length S - j = (numChunks big.length S - (j + 1)) + 1 := by
        omega
      simp only [chunkGo, if_pos h]
      rw [hrec, hrange, List.range'_succ]
      simp [hlen, List.append_assoc]
    · have hnum : numChunks big.length S ≤ j := (numChunks_le_iff hS).mpr (by omega)
      have : numChunks big.length S - j = 0 := by omega
      simp [chunkGo, this, Nat.not_lt.mpr (Nat.le_of_not_lt h)]

theorem chunk_text_closed (big : List Char) (S : Nat) (hS : 1 ≤ S) :
    chunk_text big S = some (chunkList big S) := by
  have := chunkGo_closed big S hS (big.length + 1) 0 [] (by nlinarith) rfl
  simpa [chunk_text, chunkList, List.range_eq_range'] using this

theorem mem_pySlice (l : List Char) (a b p : Nat) (ha : a ≤ p) (hb : p < b)
    (hp : p < l.length) : l.get ⟨p, hp⟩ ∈ pySlice l a b := by
  have hlen : p - a < ((l.take b).drop a).length := by
    simp only [List.length_drop, List.length_take]
    omega
  have heq : ((l.take b).drop a).get ⟨p - a, hlen⟩ = l.get ⟨p, hp⟩ := by
    simp only [List.get_eq_getElem, List.getElem_drop, List.getElem_take]
    congr 1
    omega
  rw [pySlice, ← heq]
  exact List.get_mem _ _ _

/-- Claim C4 exactly as stated, as a predicate over the source's `chunk_text`:
for nonempty input and every chunk size, the produced chunk list has exactly
`ceil(L / S)` entries, and for `i > 0` chunk `i`'s text starts exactly
`CHUNK_OVERLAP = 800` characters before the nominal boundary `i * S` (so in
particular that start position `i * S - 800` must be a genuine position,
i.e. `800 ≤ i * S`). -/
def chunkClaimC4 (big : List Char) (S : Nat) : Prop :=
  0 < big.length →
    ∃ cs, chunk_text big S = some cs ∧ cs.length = numChunks big.length S ∧
      ∀ i, 0 < i → ∀ h : i < cs.length,
        CHUNK_OVERLAP ≤ i * S ∧
        (cs.get ⟨i, h⟩).2 = pySlice big (i * S - CHUNK_OVERLAP) (i * S + S)

/-- C4 counterexample: on the ten-character text "abcdefghij" with chunk size 5,
chunk 1 does not start 800 characters before its nominal boundary 5 (the code
clamps the start at 0), so the claim as stated fails. -/
theorem chunk_text_claimC4_counterexample :
    ¬ chunkClaimC4 (String.toList "abcdefghij") 5 := by
  intro h
  obtain ⟨cs, hcs, -, hstart⟩ := h (by decide)
  have hval : chunk_text (String.toList "abcdefghij") 5 =
      some [(0, String.toList "abcde"), (1, String.toList "abcdefghij")] := by decide
  rw [hval] at hcs
  have hcs' : cs = [(0, String.toList "abcde"), (1, String.toList "abcdefghij")] :=
    (Option.some.inj hcs).symm
  subst hcs'
  have h1 := (hstart 1 (by decide) (by decide)).1
  simp [CHUNK_OVERLAP] at h1

/-- C4 (amended): for nonempty input and chunk size `S ≥ 1` (with `S = 0` the
source loop never terminates), `chunk_text` produces exactly `ceil(L / S)`
chunks, and for `i > 0` chunk `i`'s text starts at `max(0, i * S - 800)`,
i.e. 800 characters before the nominal boundary whenever `i * S ≥ 800`
(Nat subtraction below is that clamped start). -/
theorem chunk_text_count_and_starts (big : List Char) (S : Nat)
    (hS : 1 ≤ S) (_hL : 0 < big.length) :
    ∃ cs, chunk_text big S = some cs ∧ cs.length = numChunks big.length S ∧
      ∀ i, 0 < i → ∀ h : i < cs.length,
        (cs.get ⟨i, h⟩).2 = pySlice big (i * S - CHUNK_OVERLAP) (i * S + S) := by
  refine ⟨chunkList big S, chunk_text_closed big S hS, by simp [chunkList], ?_⟩
  intro i hi h
  have hlen : i < numChunks big.length S := by
    simpa [chunkList] using h
  simp [chunkList, chunk_slice]

/-- Witness for the amended C4 theorem at the concrete input "ab", chunk size 1. -/
theorem chunk_text_count_and_starts_witness :
    ∃ cs, chunk_text (String.toList "ab") 1 = some cs ∧
      cs.length = numChunks (String.toList "ab").length 1 ∧
      ∀ i, 0 < i → ∀ h : i < cs.length,
        (cs.get ⟨i, h⟩).2 =
          pySlice (String.toList "ab") (i * 1 - CHUNK_OVERLAP) (i * 1 + 1) :=
  chunk_text_count_and_starts (String.toList "ab") 1 (by decide) (by decide)

/-- C10: for every input and chunk size `S ≥ 1` the chunking loop terminates
(the fuel never runs out, so `chunk_text` returns a value); every chunk's text
has length at most `S + 800`, the index-0 chunk has length at most `S`, and
every character of the input occurs in at least one chunk. -/
theorem chunk_text_terminates_bounds_covers (big : List Char) (S : Nat) (hS : 1 ≤ S) :
    (chunk_text big S).isSome ∧
    ∀ cs, chunk_text big S = some cs →
      (∀ c ∈ cs, (c.2).length ≤ S + CHUNK_OVERLAP) ∧
      (∀ c ∈ cs, c.1 = 0 → (c.2).length ≤ S) ∧
      (∀ p, ∀ hp : p < big.length, ∃ c ∈ cs, big.get ⟨p, hp⟩ ∈ c.2) := by
  have hclosed := chunk_text_closed big S hS
  constructor
  · rw [hclosed]; rfl
  · intro cs hcs
    rw [hclosed] at hcs
    have hcs' : cs = chunkList big S := (Option.some.inj hcs).symm
    subst hcs'
    refine ⟨?_, ?_, ?_⟩
    · intro c hc
      obtain ⟨j, -, rfl⟩ := List.mem_map.mp hc
      simp only [chunk_slice, pySlice, List.length_drop, List.length_take]
      omega
    · intro c hc hc0
      obtain ⟨j, -, rfl⟩ := List.mem_map.mp hc
      simp only at hc0
      subst hc0
      simp only [chunk_slice, pySlice, List.length_drop, List.length_take]
      omega
    · intro p hp
      refine ⟨(p / S, chunk_slice big S (p / S * S)), ?_, ?_⟩
      · refine List.mem_map.mpr ⟨p / S, List.mem_range.mpr ?_, rfl⟩
        by_contra hc
        have hle := (numChunks_le_iff hS).mp (Nat.le_of_not_lt hc)
        exact absurd (Nat.lt_of_le_of_lt (Nat.div_mul_le_self p S) hp) (by omega)
      · apply mem_pySlice
        · exact Nat.le_trans (Nat.sub_le _ _) (Nat.div_mul_le_self p S)
        · have hmod := Nat.div_add_mod p S
          have hlt := Nat.mod_lt p (by omega : 0 < S)
          have : S * (p / S) = p / S * S := by ring
          omega

/-- Witness for the C10 theorem at the concrete input "a", chunk size 1. -/
theorem chunk_text_terminates_bounds_covers_witness :
    (chunk_text (String.toList "a") 1).isSome ∧
    ∀ cs, chunk_text (String.toList "a") 1 = some cs →
      (∀ c ∈ cs, (c.2).length ≤ 1 + CHUNK_OVERLAP) ∧
      (∀ c ∈ cs, c.1 = 0 → (c.2).length ≤ 1) ∧
      (∀ p, ∀ hp : p < (String.toList "a").length,
        ∃ c ∈ cs, (String.toList "a").get ⟨p, hp⟩ ∈ c.2) :=
  chunk_text_terminates_bounds_covers (String.toList "a") 1 (by decide)

/-- Python `s.startswith(pre)`. -/
def strStartsWith (s pre : String) : Bool :=
  pre.toList.isPrefixOf s.toList

/-- `is_same_origin(base_url, candidate)` (lines 36-42): true iff the
(scheme, netloc) pairs of the two URLs agree. `urllib.parse.urlparse` is an
external library; the `parse` parameter gives the (scheme, netloc) pair it
returns for each URL string. (The except-branch returning False covers the
rare inputs urlparse rejects; a total `parse` absorbs them.) -/
def is_same_origin (parse : String → String × String) (base candidate : String) : Bool :=
  parse base == parse candidate

/-- The link-discovery for-loop of `crawl_depth1` (lines 339-344): for each
resolved anchor target `nxt` (the values `norm(url, a["href"])`, supplied by
the `links` parameter of the crawl loop), skip mailto:/javascript: targets,
skip targets already visited or already in the queue, and apply the
same-origin filter before appending to the queue. -/
def enqueue_links (parse : String → String × String) (start_url : String)
    (same_origin : Bool) (visited : List String) :
    List String → List String → List String
  | queue, [] => queue
  | queue, nxt :: rest =>
    if strStartsWith nxt "mailto:" || strStartsWith nxt "javascript:" then
      enqueue_links parse start_url same_origin visited queue rest
    else if nxt ∈ visited ∨ nxt ∈ queue then
      enqueue_links parse start_url same_origin visited queue rest
    else if !same_origin || is_same_origin parse start_url nxt then
      enqueue_links parse start_url same_origin visited (queue ++ [nxt]) rest
    else
      enqueue_links parse start_url same_origin visited queue rest

/-- The while-loop of `crawl_depth1` (lines 325-347) on the frontier state
(visited, queue, pg). `links url` is the list of resolved anchor targets
discovered on the captured page for `url`; `parse` is urlparse's
(scheme, netloc); `origin` of line 320 is `(parse start_url).2`. Page capture,
colour merging and file writes do not change the frontier state and are
omitted. The `visited` set is modelled as a duplicate-free list in insertion
order. Terminates because each iteration either increments `pg` (bounded by
`max_pages`) or strictly shortens the queue. -/
def crawl_loop (links : String → List String) (parse : String → String × String)
    (start_url : String) (max_pages : Nat) (same_origin : Bool) :
    List String → List String → Nat → List String × Nat
  | visited, [], pg => (visited, pg)
  | visited, url :: rest, pg =>
    if h : pg < max_pages then
      if url ∈ visited then
        crawl_loop links parse start_url max_pages same_origin visited rest pg
      else if same_origin && ((parse url).2 != (parse start_url).2) then
        crawl_loop links parse start_url max_pages same_origin visited rest pg
      else
        crawl_loop links parse start_url max_pages same_origin (visited ++ [url])
          (enqueue_links parse start_url same_origin (visited ++ [url]) rest (links url))
          (pg + 1)
    else (visited, pg)
termination_by _v queue pg => (max_pages - pg, queue.length)

/-- `crawl_depth1(start_url, max_pages, same_origin, ...)` (lines 317-352),
frontier part: visited starts empty, the queue holds the start URL, pg = 0;
the result is the final (visited, pg). -/
def crawl_depth1 (links : String → List String) (parse : String → String × String)
    (start_url : String) (max_pages : Nat) (same_origin : Bool) :
    List String × Nat :=
  crawl_loop links parse start_url max_pages same_origin [] [start_url] 0

theorem crawl_loop_nil (links : String → List String) (parse : String → String × String)
    (start : String) (mp : Nat) (so : Bool) (v : List String) (pg : Nat) :
    crawl_loop links parse start mp so v [] pg = (v, pg) := by
  simp [crawl_loop]

theorem crawl_loop_stop (links : String → List String) (parse : String → String × String)
    (start : String) (mp : Nat) (so : Bool) (v : List String) (url : String)
    (rest : List String) (pg : Nat) (h : ¬ pg < mp) :
    crawl_loop links parse start mp so v (url :: rest) pg = (v, pg) := by
  simp [crawl_loop, h]

theorem crawl_loop_skip_visited (links : String → List String)
    (parse : String → String × String) (start : String) (mp : Nat) (so : Bool)
    (v : List String) (url : String) (rest : List String) (pg : Nat)
    (hlt : pg < mp) (hmem : url ∈ v) :
    crawl_loop links parse start mp so v (url :: rest) pg =
      crawl_loop links parse start mp so v rest pg := by
  simp [crawl_loop, hlt, hmem]

theorem crawl_loop_skip_origin (links : String → List String)
    (parse : String → String × String) (start : String) (mp : Nat) (so : Bool)
    (v : List String) (url : String) (rest : List String) (pg : Nat)
    (hlt : pg < mp) (hmem : url ∉ v)
    (hor : (so && ((parse url).2 != (parse start).2)) = true) :
    crawl_loop links parse start mp so v (url :: rest) pg =
      crawl_loop links parse start mp so v rest pg := by
  simp [crawl_loop, hlt, hmem, hor]

theorem crawl_loop_visit (links : String → List String)
    (parse : String → String × String) (start : String) (mp : Nat) (so : Bool)
    (v : List String) (url : String) (rest : List String) (pg : Nat)
    (hlt : pg < mp) (hmem : url ∉ v)
    (hor : ¬ (so && ((parse url).2 != (parse start).2)) = true) :
    crawl_loop links parse start mp so v (url :: rest) pg =
      crawl_loop links parse start mp so (v ++ [url])
        (enqueue_links parse start so (v ++ [url]) rest (links url)) (pg + 1) := by
  simp [crawl_loop, hlt, hmem, hor]

theorem enqueue_links_mem (parse : String → String × String) (start : String)
    (so : Bool) (visited : List String) :
    ∀ nxts queue u, u ∈ enqueue_links parse start so visited queue nxts →
      u ∈ queue ∨ (u ∉ visited ∧ u ∈ nxts) := by
  intro nxts
  induction nxts with
  | nil =>
    intro queue u hu
    simp only [enqueue_links] at hu
    exact Or.inl hu
  | cons nxt rest ih =>
    intro queue u hu
    simp only [enqueue_links] at hu
    split_ifs at hu with h1 h2 h3
    · exact (ih queue u hu).imp_right (fun hh => ⟨hh.1, List.mem_cons_of_mem _ hh.2⟩)
    · exact (ih queue u hu).imp_right (fun hh => ⟨hh.1, List.mem_cons_of_mem _ hh.2⟩)
    · rcases ih _ u hu with hq | hh
      · rcases List.mem_append.mp hq with hq | hq
        · exact Or.inl hq
        · have hu' : u = nxt := by simpa using hq
          subst hu'
          exact Or.inr ⟨fun hc => h2 (Or.inl hc), List.mem_cons_self _ _⟩
      · exact Or.inr ⟨hh.1, List.mem_cons_of_mem _ hh.2⟩
    · exact (ih queue u hu).imp_right (fun hh => ⟨hh.1, List.mem_cons_of_mem _ hh.2⟩)

theorem enqueue_links_nodup (parse : String → String × String) (start : String)
    (so : Bool) (visited : List String) :
    ∀ nxts queue, queue.Nodup →
      (enqueue_links parse start so visited queue nxts).Nodup := by
  intro nxts
  induction nxts with
  | nil => intro queue hq; simpa [enqueue_links] using hq
  | cons nxt rest ih =>
    intro queue hq
    simp only [enqueue_links]
    split_ifs with h1 h2 h3
    · exact ih queue hq
    · exact ih queue hq
    · refine ih _ ?_
      have hnq : nxt ∉ queue := fun hc => h2 (Or.inr hc)
      simp [List.nodup_append, hq, hnq]
    · exact ih queue hq

theorem enqueue_links_origin (parse : String → String × String) (start : String)
    (visited : List String) :
    ∀ nxts queue, (∀ u ∈ queue, parse u = parse start) →
      ∀ u ∈ enqueue_links parse start true visited queue nxts,
        parse u = parse start := by
  intro nxts
  induction nxts with
  | nil =>
    intro queue hq u hu
    simp only [enqueue_links] at hu
    exact hq u hu
  | cons nxt rest ih =>
    intro queue hq u hu
    simp only [enqueue_links] at hu
    split_ifs at hu with h1 h2 h3
    · exact ih queue hq u hu
    · exact ih queue hq u hu
    · refine ih _ ?_ u hu
      intro w hw
      rcases List.mem_append.mp hw with hw | hw
      · exact hq w hw
      · have hw' : w = nxt := by simpa using hw
        subst hw'
        have hso : is_same_origin parse start w = true := by simpa using h3
        have heq : parse start = parse w := by
          have := hso
          simp only [is_same_origin, beq_iff_eq] at this
          exact this
        exact heq.symm
    · exact ih queue hq u hu

theorem crawl_loop_visited_nodup (links : String → List String)
    (parse : String → String × String) (start : String) (mp : Nat) (so : Bool) :
    ∀ visited queue pg, visited.Nodup → queue.Nodup →
      (∀ u ∈ visited, u ∉ queue) →
      ((crawl_loop links parse start mp so visited queue pg).1).Nodup := by
  intro visited queue pg
  induction visited, queue, pg using crawl_loop.induct links parse start mp so with
  | case1 v pg =>
    intro hv _ _
    simpa [crawl_loop_nil] using hv
  | case2 v url rest pg hlt hmem ih =>
    intro hv hq hd
    rw [crawl_loop_skip_visited links parse start mp so v url rest pg hlt hmem]
    exact ih hv (List.Nodup.of_cons hq)
      (fun u hu hr => hd u hu (List.mem_cons_of_mem _ hr))
  | case3 v url rest pg hlt hmem hor ih =>
    intro hv hq hd
    rw [crawl_loop_skip_origin links parse start mp so v url rest pg hlt hmem hor]
    exact ih hv (List.Nodup.of_cons hq)
      (fun u hu hr => hd u hu (List.mem_cons_of_mem _ hr))
  | case4 v url rest pg hlt hmem hor ih =>
    intro hv hq hd
    rw [crawl_loop_visit links parse start mp so v url rest pg hlt hmem hor]
    have hrest : rest.Nodup := List.Nodup.of_cons hq
    have hurlrest : url ∉ rest := (List.nodup_cons.mp hq).1
    apply ih
    · simp [List.nodup_append, hv, hmem]
    · exact enqueue_links_nodup parse start so (v ++ [url]) (links url) rest hrest
    · intro u hu hc
      rcases enqueue_links_mem parse start so (v ++ [url]) (links url) rest u hc with hr | hh
      · rcases List.mem_append.mp hu with huv | huu
        · exact hd u huv (List.mem_cons_of_mem _ hr)
        · have : u = url := by simpa using huu
          subst this
          exact hurlrest hr
      · exact hh.1 hu
  | case5 v url rest pg hlt =>
    intro hv _ _
    rw [crawl_loop_stop links parse start mp so v url rest pg hlt]
    exact hv

theorem crawl_loop_origin_invariant (links : String → List String)
    (parse : String → String × String) (start : String) (mp : Nat) :
    ∀ visited queue pg, (∀ u ∈ visited, parse u = parse start) →
      (∀ u ∈ queue, parse u = parse start) →
      ∀ u ∈ (crawl_loop links parse start mp true visited queue pg).1,
        parse u = parse start := by
  intro visited queue pg
  induction visited, queue, pg using crawl_loop.induct links parse start mp true with
  | case1 v pg =>
    intro hv _ u hu
    rw [crawl_loop_nil] at hu
    exact hv u hu
  | case2 v url rest pg hlt hmem ih =>
    intro hv hq
    rw [crawl_loop_skip_visited links parse start mp true v url rest pg hlt hmem]
    exact ih hv (fun u hu => hq u (List.mem_cons_of_mem _ hu))
  | case3 v url rest pg hlt hmem hor ih =>
    intro hv hq
    rw [crawl_loop_skip_origin links parse start mp true v url rest pg hlt hmem hor]
    exact ih hv (fun u hu => hq u (List.mem_cons_of_mem _ hu))
  | case4 v url rest pg hlt hmem hor ih =>
    intro hv hq
    rw [crawl_loop_visit links parse start mp true v url rest pg hlt hmem hor]
    have hv' : ∀ u ∈ v ++ [url], parse u = parse start := by
      intro u hu
      rcases List.mem_append.mp hu with huv | huu
      · exact hv u huv
      · have : u = url := by simpa using huu
        subst this
        exact hq u (List.mem_cons_self _ _)
    refine ih hv' ?_
    exact enqueue_links_origin parse start (v ++ [url]) (links url) rest
      (fun u hu => hq u (List.mem_cons_of_mem _ hu))
  | case5 v url rest pg hlt =>
    intro hv _ u hu
    rw [crawl_loop_stop links parse start mp true v url rest pg hlt] at hu
    exact hv u hu

theorem crawl_loop_count (links : String → List String)
    (parse : String → String × String) (start : String) (mp : Nat) (so : Bool) :
    ∀ visited queue pg, pg ≤ mp →
      (crawl_loop links parse start mp so visited queue pg).2 ≤ mp ∧
      ((crawl_loop links parse start mp so visited queue pg).1).length + pg =
        visited.length + (crawl_loop links parse start mp so visited queue pg).2 := by
  intro visited queue pg
  induction visited, queue, pg using crawl_loop.induct links parse start mp so with
  | case1 v pg =>
    intro hle
    simp [crawl_loop_nil, hle]
  | case2 v url rest pg hlt hmem ih =>
    intro hle
    rw [crawl_loop_skip_visited links parse start mp so v url rest pg hlt hmem]
    exact ih hle
  | case3 v url rest pg hlt hmem hor ih =>
    intro hle
    rw [crawl_loop_skip_origin links parse start mp so v url rest pg hlt hmem hor]
    exact ih hle
  | case4 v url rest pg hlt hmem hor ih =>
    intro hle
    rw [crawl_loop_visit links parse start mp so v url rest pg hlt hmem hor]
    have := ih (by omega)
    refine ⟨this.1, ?_⟩
    have hlen := this.2
    simp only [List.length_append, List.length_singleton] at hlen ⊢
    omega
  | case5 v url rest pg hlt =>
    intro hle
    rw [crawl_loop_stop links parse start mp so v url rest pg hlt]
    simp [hle]

/-- Concrete page graph for the end-to-end scenario of C3: the start page
links to three same-origin pages, none of which links further. -/
def demoLinks : String → List String := fun u =>
  if u = "http://a/" then ["http://a/1", "http://a/2", "http://a/3"] else []

/-- Concrete urlparse behaviour for the scenario: all URLs share the
(scheme, netloc) pair ("http", "a"). -/
def demoParse : String → String × String := fun _ => ("http", "a")

/-- C1: in depth-1 crawl mode the frontier visits every URL at most once
(the visited list the loop builds is duplicate-free, whatever pages link
where), and the enqueue step never adds a URL that is already visited or
already queued: it keeps a duplicate-free queue duplicate-free, and a visited
URL is in the post-enqueue queue only if it was in the queue before. -/
theorem crawl_depth1_visits_once :
    (∀ (links : String → List String) (parse : String → String × String)
      (start : String) (mp : Nat) (so : Bool),
      ((crawl_depth1 links parse start mp so).1).Nodup) ∧
    (∀ (parse : String → String × String) (start : String) (so : Bool)
      (visited queue nxts : List String), queue.Nodup →
      (enqueue_links parse start so visited queue nxts).Nodup) ∧
    (∀ (parse : String → String × String) (start : String) (so : Bool)
      (visited queue nxts : List String) (u : String), u ∈ visited →
      u ∈ enqueue_links parse start so visited queue nxts → u ∈ queue) := by
  refine ⟨?_, ?_, ?_⟩
  · intro links parse start mp so
    exact crawl_loop_visited_nodup links parse start mp so [] [start] 0
      (by simp) (by simp) (by simp)
  · intro parse start so visited queue nxts hq
    exact enqueue_links_nodup parse start so visited nxts queue hq
  · intro parse start so visited queue nxts u hu hmem
    rcases enqueue_links_mem parse start so visited nxts queue u hmem with h | h
    · exact h
    · exact absurd hu h.1

/-- Witness for C1 at concrete inputs (the third conjunct is applied with
visited = queue = ["v"], where the enqueue loop leaves the queue unchanged). -/
theorem crawl_depth1_visits_once_witness :
    ((crawl_depth1 (fun _ => []) (fun _ => ("http", "h")) "s" 1 false).1).Nodup ∧
    (enqueue_links (fun _ => ("http", "h")) "s" false [] ["q"] ["a"]).Nodup ∧
    ("v" : String) ∈ ["v"] :=
  ⟨crawl_depth1_visits_once.1 (fun _ => []) (fun _ => ("http", "h")) "s" 1 false,
   crawl_depth1_visits_once.2.1 (fun _ => ("http", "h")) "s" false [] ["q"] ["a"]
     (by decide),
   crawl_depth1_visits_once.2.2 (fun _ => ("http", "h")) "s" false ["v"] ["v"] []
     "v" (by decide) (by decide)⟩

/-- C2: with --same-origin set, every URL the depth-1 crawl ever adds to the
visited set (hence every URL of visited_urls.txt) has the same
(scheme, netloc) pair as the start URL, for every page graph and every
urlparse behaviour. -/
theorem crawl_depth1_visited_same_origin (links : String → List String)
    (parse : String → String × String) (start : String) (mp : Nat) :
    ∀ u ∈ (crawl_depth1 links parse start mp true).1, parse u = parse start := by
  intro u hu
  refine crawl_loop_origin_invariant links parse start mp [] [start] 0
    (by simp) ?_ u hu
  intro w hw
  have : w = start := by simpa using hw
  subst this
  rfl

/-- Witness for C2: in the demo crawl the discovered page "http://a/1" is
visited, and its (scheme, netloc) pair equals the start URL's. -/
theorem crawl_depth1_visited_same_origin_witness :
    demoParse "http://a/1" = demoParse "http://a/" := by
  have hmem : "http://a/1" ∈ (crawl_depth1 demoLinks demoParse "http://a/" 2 true).1 := by
    simp [crawl_depth1, crawl_loop, enqueue_links, demoLinks, demoParse,
      strStartsWith, is_same_origin]
  exact crawl_depth1_visited_same_origin demoLinks demoParse "http://a/" 2
    "http://a/1" hmem

/-- C3: the depth-1 crawl loop (a total function here; its Lean definition is
by well-founded recursion on (max_pages - pg, queue length), which is the
termination argument) visits at most max_pages pages, the final page count
equals the number of visited URLs, the loop is already finished exactly when
the queue is empty or the page count has reached max_pages, and in the
concrete scenario of a start page with three same-origin links and
max_pages = 2 exactly the start page and the first link are captured while
the third link is never fetched. -/
theorem crawl_depth1_bounded_and_stops :
    (∀ (links : String → List String) (parse : String → String × String)
      (start : String) (mp : Nat) (so : Bool),
      (crawl_depth1 links parse start mp so).2 ≤ mp ∧
      ((crawl_depth1 links parse start mp so).1).length =
        (crawl_depth1 links parse start mp so).2) ∧
    (∀ (links : String → List String) (parse : String → String × String)
      (start : String) (mp : Nat) (so : Bool) (v q : List String) (pg : Nat),
      q = [] ∨ mp ≤ pg →
      crawl_loop links parse start mp so v q pg = (v, pg)) ∧
    (crawl_depth1 demoLinks demoParse "http://a/" 2 true =
      (["http://a/", "http://a/1"], 2) ∧
     "http://a/3" ∉ (crawl_depth1 demoLinks demoParse "http://a/" 2 true).1) := by
  refine ⟨?_, ?_, ?_⟩
  · intro links parse start mp so
    have h := crawl_loop_count links parse start mp so [] [start] 0 (by omega)
    exact ⟨h.1, by simpa using h.2⟩
  · intro links parse start mp so v q pg h
    rcases h with h | h
    · subst h
      exact crawl_loop_nil links parse start mp so v pg
    · cases q with
      | nil => exact crawl_loop_nil links parse start mp so v pg
      | cons url rest =>
        exact crawl_loop_stop links parse start mp so v url rest pg (by omega)
  · have hval : crawl_depth1 demoLinks demoParse "http://a/" 2 true =
        (["http://a/", "http://a/1"], 2) := by
      simp [crawl_depth1, crawl_loop, enqueue_links, demoLinks, demoParse,
        strStartsWith, is_same_origin]
    refine ⟨hval, ?_⟩
    rw [hval]
    decide

/-- Witness for C3: the stop-condition conjunct applied at a concrete
already-exhausted state (page count 5 at limit 0). -/
theorem crawl_depth1_bounded_and_stops_witness :
    crawl_loop (fun _ => []) (fun _ => ("http", "h")) "s" 0 false ["v"] ["u"] 5 =
      (["v"], 5) :=
  crawl_depth1_bounded_and_stops.2.1 (fun _ => []) (fun _ => ("http", "h"))
    "s" 0 false ["v"] ["u"] 5 (Or.inr (by omega))

/-- Python `list(dict.fromkeys(l))`: deduplicate keeping the first occurrence
of each element, in first-seen order; `seen` accumulates the keys already
emitted. -/
def pyDedupAux (seen : List String) : List String → List String
  | [] => []
  | x :: xs => if x ∈ seen then pyDedupAux seen xs else x :: pyDedupAux (x :: seen) xs

/-- `list(dict.fromkeys(l))` as used at lines 75, 178, 206 and 209. -/
def pyDedup (l : List String) : List String := pyDedupAux [] l

theorem pyDedupAux_mem (u : String) :
    ∀ l seen, u ∈ pyDedupAux seen l ↔ u ∈ l ∧ u ∉ seen := by
  intro l
  induction l with
  | nil => intro seen; simp [pyDedupAux]
  | cons x xs ih =>
    intro seen
    simp only [pyDedupAux]
    split_ifs with hx
    · rw [ih]
      constructor
      · exact fun h => ⟨List.mem_cons_of_mem _ h.1, h.2⟩
      · rintro ⟨h1, h2⟩
        rcases List.mem_cons.mp h1 with rfl | h1
        · exact absurd hx h2
        · exact ⟨h1, h2⟩
    · constructor
      · intro h
        rcases List.mem_cons.mp h with rfl | h
        · exact ⟨List.mem_cons_self _ _, hx⟩
        · have := (ih (x :: seen)).mp h
          refine ⟨List.mem_cons_of_mem _ this.1, fun hc => this.2 (List.mem_cons_of_mem _ hc)⟩
      · rintro ⟨h1, h2⟩
        rcases List.mem_cons.mp h1 with rfl | h1
        · exact List.mem_cons_self _ _
        · by_cases hux : u = x
          · subst hux; exact List.mem_cons_self _ _
          · refine List.mem_cons_of_mem _ ((ih (x :: seen)).mpr ⟨h1, ?_⟩)
            intro hc
            rcases List.mem_cons.mp hc with hc | hc
            · exact hux hc
            · exact h2 hc

theorem pyDedupAux_nodup : ∀ (l seen : List String), (pyDedupAux seen l).Nodup := by
  intro l
  induction l with
  | nil => intro seen; simp [pyDedupAux]
  | cons x xs ih =>
    intro seen
    simp only [pyDedupAux]
    split_ifs with hx
    · exact ih seen
    · refine List.nodup_cons.mpr ⟨?_, ih (x :: seen)⟩
      intro hc
      exact ((pyDedupAux_mem x xs (x :: seen)).mp hc).2 (List.mem_cons_self _ _)

theorem pyDedup_mem (u : String) (l : List String) : u ∈ pyDedup l ↔ u ∈ l := by
  simp [pyDedup, pyDedupAux_mem]

theorem pyDedup_nodup (l : List String) : (pyDedup l).Nodup :=
  pyDedupAux_nodup l []

/-- The asset-selection step of `render_and_capture` (lines 209-211):
`all_assets = list(dict.fromkeys(dom_assets + assets_from_css))`, truncated to
its first 250 entries when longer. -/
def select_assets (dom_assets assets_from_css : List String) : List String :=
  let all_assets := pyDedup (dom_assets ++ assets_from_css)
  if 250 < all_assets.length then all_assets.take 250 else all_assets

/-- C6: the asset list handed to the downloader is the first-seen
deduplication of the DOM-discovered plus CSS-discovered asset URLs, truncated
to at most 250 entries: it is duplicate-free, at most 250 long, drawn from the
two source lists, equals the dedup-then-take-250 of their concatenation, and
loses no URL at all when the deduplicated union fits the cap. -/
theorem select_assets_dedup_capped (dom css : List String) :
    (select_assets dom css).length ≤ 250 ∧
    (select_assets dom css).Nodup ∧
    (∀ u ∈ select_assets dom css, u ∈ dom ++ css) ∧
    select_assets dom css = (pyDedup (dom ++ css)).take 250 ∧
    ((pyDedup (dom ++ css)).length ≤ 250 →
      ∀ u, u ∈ select_assets dom css ↔ u ∈ dom ++ css) := by
  have htake : select_assets dom css = (pyDedup (dom ++ css)).take 250 := by
    unfold select_assets
    dsimp only
    split_ifs with h
    · rfl
    · exact (List.take_of_length_le (by omega)).symm
  have hsub : select_assets dom css ⊆ pyDedup (dom ++ css) := by
    rw [htake]; exact List.take_subset _ _
  refine ⟨?_, ?_, ?_, htake, ?_⟩
  · rw [htake]
    simp [List.length_take]
  · exact List.Nodup.sublist (by rw [htake]; exact List.take_sublist _ _) (pyDedup_nodup _)
  · intro u hu
    exact (pyDedup_mem u _).mp (hsub hu)
  · intro hle u
    rw [htake, List.take_of_length_le hle, pyDedup_mem]

/-- Witness for C6 at concrete lists (the cap is not reached, so membership is
preserved exactly). -/
theorem select_assets_dedup_capped_witness :
    (select_assets ["a", "b", "a"] ["b", "c"]).length ≤ 250 ∧
    (("a" : String) ∈ select_assets ["a", "b", "a"] ["b", "c"] ↔
      ("a" : String) ∈ ["a", "b", "a"] ++ ["b", "c"]) :=
  ⟨(select_assets_dedup_capped ["a", "b", "a"] ["b", "c"]).1,
   (select_assets_dedup_capped ["a", "b", "a"] ["b", "c"]).2.2.2.2 (by decide) "a"⟩

/-- Characters the filename sanitiser keeps: the class [0-9A-Za-z._-] of the
re.sub at line 52. -/
def allowedFileChar (c : Char) : Bool :=
  (48 ≤ c.toNat && c.toNat ≤ 57) || (65 ≤ c.toNat && c.toNat ≤ 90) ||
    (97 ≤ c.toNat && c.toNat ≤ 122) || c.toNat == 46 || c.toNat == 95 ||
    c.toNat == 45

/-- `os.path.basename`: the part of the path after its last '/'. -/
def basename (path : String) : String :=
  String.mk ((path.toList.reverse.takeWhile (fun c => !(c == '/'))).reverse)

/-- `filename_from_url(url)` (lines 47-52). urllib.parse.urlparse and Python's
str hash are external: `pathQuery url` is urlparse's (path, query) pair for
the url, and `hashF` is the process's str hash, which PYTHONHASHSEED salts
differently on every run. `abs(hash(q)) % 10**8` is `(hashF q).natAbs % 10^8`
appended after '_' when the query is nonempty, and the re.sub replaces every
character outside [0-9A-Za-z._-] with '_'. -/
def filename_from_url (pathQuery : String → String × String)
    (hashF : String → Int) (url : String) : String :=
  let p := pathQuery url
  let base0 := basename p.1
  let base1 := if base0 = "" then "index" else base0
  let base2 :=
    if p.2 ≠ "" then base1 ++ "_" ++ toString ((hashF p.2).natAbs % 10 ^ 8)
    else base1
  String.mk (base2.toList.map (fun c => if allowedFileChar c then c else '_'))

/-- Claim C9 as stated: the filename derived from a URL is the same in any
two runs of the program, i.e. for any two per-run str-hash functions. -/
def filenameClaimC9 : Prop :=
  ∀ (pathQuery : String → String × String) (h1 h2 : String → Int) (url : String),
    filename_from_url pathQuery h1 url = filename_from_url pathQuery h2 url

/-- C9 counterexample: for a URL whose query is nonempty ("a?q" parsing to
path "a", query "q"), two runs whose salted str hashes give 0 and 1 produce
the filenames "a_0" and "a_1". -/
theorem filename_claimC9_counterexample : ¬ filenameClaimC9 := by
  intro h
  exact absurd (h (fun _ => ("a", "q")) (fun _ => 0) (fun _ => 1) "u") (by decide)

/-- C9 (amended): the filename is a deterministic function of the URL's
(path, query) and the run's str-hash function; it is identical across runs
whenever the query component is empty (the hash is then never taken), and
every character of the produced filename lies in [0-9A-Za-z._-]. -/
theorem filename_from_url_deterministic (pathQuery : String → String × String)
    (h1 h2 : String → Int) (url : String) :
    ((pathQuery url).2 = "" →
      filename_from_url pathQuery h1 url = filename_from_url pathQuery h2 url) ∧
    (∀ c ∈ (filename_from_url pathQuery h1 url).toList, allowedFileChar c = true) := by
  constructor
  · intro hq
    simp [filename_from_url, hq]
  · intro c hc
    simp only [filename_from_url, String.toList] at hc
    rcases List.mem_map.mp hc with ⟨x, -, rfl⟩
    split_ifs with hx
    · exact hx
    · decide

/-- Witness for the amended C9 theorem: with empty query the filename is
hash-independent, and its characters are all in the allowed class. -/
theorem filename_from_url_deterministic_witness :
    filename_from_url (fun _ => ("p/f.png", "")) (fun _ => 7) "u" =
      filename_from_url (fun _ => ("p/f.png", "")) (fun _ => 9) "u" ∧
    allowedFileChar 'f' = true :=
  ⟨(filename_from_url_deterministic (fun _ => ("p/f.png", "")) (fun _ => 7)
      (fun _ => 9) "u").1 rfl,
   (filename_from_url_deterministic (fun _ => ("p/f.png", "")) (fun _ => 7)
      (fun _ => 9) "u").2 'f' (by decide)⟩

/-- Outcome of `requests.get(url, headers=..., timeout=20, stream=True)`:
either a raised exception (network error, timeout, ...) with its message, or
a response with HTTP status code and optional Content-Type header. -/
inductive FetchOutcome where
  | exc (msg : String)
  | resp (status : Nat) (contentType : Option String)

/-- Outcome of streaming the body into the local file (the open/iter_content/
write block): a raised exception with its message, or success with the
resulting `local.stat().st_size`. -/
inductive SaveOutcome where
  | exc (msg : String)
  | ok (size : Nat)

/-- The dict `download_asset` returns: a field is `some` exactly when the
corresponding key is present; `content_type` is doubly optional because the
key can be present with value None (absent header). -/
structure AssetRecord where
  url : String
  local_path : Option String
  status : Option Nat
  content_type : Option (Option String)
  bytes : Option Nat
  error : Option String

/-- `download_asset(url)` (lines 77-97). The network and the filesystem are
external: `fetch` is what `requests.get` does for this URL, and `save` the
outcome of streaming the body to `ASSETS_DIR / filename_from_url(url)`.
`raise_for_status()` raises exactly for statuses in [400, 600), with a
message `raiseMsg status url` (requests formats it from status and URL);
that exception and any fetch exception are caught by the first try/except
(record `{url, error}`), a write exception by the second (record
`{url, error: "save_failed: ..."}`). -/
def download_asset (pathQuery : String → String × String) (hashF : String → Int)
    (raiseMsg : Nat → String → String) (url : String) (fetch : FetchOutcome)
    (save : SaveOutcome) : AssetRecord :=
  match fetch with
  | .exc msg =>
    { url := url, local_path := none, status := none, content_type := none,
      bytes := none, error := some msg }
  | .resp status ctype =>
    if 400 ≤ status ∧ status < 600 then
      { url := url, local_path := none, status := none, content_type := none,
        bytes := none, error := some (raiseMsg status url) }
    else
      match save with
      | .exc msg =>
        { url := url, local_path := none, status := none, content_type := none,
          bytes := none, error := some ("save_failed: " ++ msg) }
      | .ok size =>
        { url := url,
          local_path := some ("crawl_output_playwright/assets/" ++
            filename_from_url pathQuery hashF url),
          status := some status, content_type := some ctype,
          bytes := some size, error := none }

/-- The download loop of `render_and_capture` (lines 212-215): one record is
appended per asset URL, whatever each outcome is (the fixed `time.sleep`
rate-limit delay does not affect the records). -/
def download_assets_batch (pathQuery : String → String × String)
    (hashF : String → Int) (raiseMsg : Nat → String → String)
    (fetchF : String → FetchOutcome) (saveF : String → SaveOutcome)
    (assets : List String) : List AssetRecord :=
  assets.map (fun a => download_asset pathQuery hashF raiseMsg a (fetchF a) (saveF a))

/-- C5: `download_asset` is a total function of the URL and the two external
outcomes (it never raises); the record it returns always carries the URL, and
is either a failure record (an error message and none of the success keys) or
a success record (local path, HTTP status, content type and byte count, and
no error key) — never a mixture; failures are exactly the fetch exceptions,
the 4xx/5xx statuses and the write exceptions, success messages carry no
error; and a batch always yields one record per requested asset, so no
per-asset failure aborts it. -/
theorem download_asset_total_shape :
    (∀ (pathQuery : String → String × String) (hashF : String → Int)
      (raiseMsg : Nat → String → String) (url : String) (fetch : FetchOutcome)
      (save : SaveOutcome),
      (download_asset pathQuery hashF raiseMsg url fetch save).url = url ∧
      (((download_asset pathQuery hashF raiseMsg url fetch save).error.isSome ∧
        (download_asset pathQuery hashF raiseMsg url fetch save).local_path = none ∧
        (download_asset pathQuery hashF raiseMsg url fetch save).status = none ∧
        (download_asset pathQuery hashF raiseMsg url fetch save).content_type = none ∧
        (download_asset pathQuery hashF raiseMsg url fetch save).bytes = none) ∨
       ((download_asset pathQuery hashF raiseMsg url fetch save).error = none ∧
        (download_asset pathQuery hashF raiseMsg url fetch save).local_path.isSome ∧
        (download_asset pathQuery hashF raiseMsg url fetch save).status.isSome ∧
        (download_asset pathQuery hashF raiseMsg url fetch save).content_type.isSome ∧
        (download_asset pathQuery hashF raiseMsg url fetch save).bytes.isSome))) ∧
    (∀ (pathQuery : String → String × String) (hashF : String → Int)
      (raiseMsg : Nat → String → String) (fetchF : String → FetchOutcome)
      (saveF : String → SaveOutcome) (assets : List String),
      (download_assets_batch pathQuery hashF raiseMsg fetchF saveF assets).length =
        assets.length) := by
  constructor
  · intro pathQuery hashF raiseMsg url fetch save
    cases fetch with
    | exc msg => simp [download_asset]
    | resp status ctype =>
      by_cases h : 400 ≤ status ∧ status < 600
      · simp [download_asset, h]
      · cases save with
        | exc msg => simp [download_asset, h]
        | ok size => simp [download_asset, h]
  · intro pathQuery hashF raiseMsg fetchF saveF assets
    simp [download_assets_batch]

/-- Value of one hexadecimal digit character as `int(_, 16)` reads it
(0-9, a-f, A-F); `none` for any other character. -/
def hexVal (c : Char) : Option Nat :=
  if 48 ≤ c.toNat ∧ c.toNat ≤ 57 then some (c.toNat - 48)
  else if 97 ≤ c.toNat ∧ c.toNat ≤ 102 then some (c.toNat - 97 + 10)
  else if 65 ≤ c.toNat ∧ c.toNat ≤ 70 then some (c.toNat - 65 + 10)
  else none

/-- Python `int(s, 16)` restricted to plain digit strings, the only shapes it
receives in build_palette.py; `none` models the ValueError it raises on an
empty string or a non-digit. -/
def parseHexNat (s : List Char) : Option Nat :=
  if s.isEmpty then none
  else s.foldl (fun acc c => acc.bind (fun v => (hexVal c).map (fun d => 16 * v + d)))
    (some 0)

/-- Lowercase hexadecimal digit character for a value below 16, as %x
formatting emits it. -/
def hexChar (d : Nat) : Char :=
  if d < 10 then Char.ofNat (48 + d) else Char.ofNat (97 + (d - 10))

/-- Digits of the minimal lowercase hexadecimal representation of `n`
(the %x conversion), most significant first; fuel-structured, `n + 1` is
always enough fuel. -/
def natToHexAux : Nat → Nat → List Char → List Char
  | 0, _, acc => acc
  | fuel+1, n, acc =>
    if n < 16 then hexChar n :: acc
    else natToHexAux fuel (n / 16) (hexChar (n % 16) :: acc)

/-- Minimal lowercase hexadecimal representation of `n`. -/
def natToHex (n : Nat) : List Char := natToHexAux (n + 1) n []

/-- Python format `f"{n:02x}"`: the %x digits left-padded with '0' to width 2. -/
def fmt02x (n : Nat) : List Char :=
  let h := natToHex n
  if h.length < 2 then List.replicate (2 - h.length) '0' ++ h else h

/-- `rgb_to_hex(rgb)` from build_palette.py (line 18):
`f"#{r:02x}{g:02x}{b:02x}"`. -/
def rgb_to_hex (rgb : Nat × Nat × Nat) : List Char :=
  '#' :: (fmt02x rgb.1 ++ fmt02x rgb.2.1 ++ fmt02x rgb.2.2)

/-- `parse_hex(token)` from build_palette.py (lines 20-28): strip all leading
'#' characters (lstrip), then read 3/4-digit shorthand by doubling each of the
first three digits (`int(c*2, 16)`), or 6/8-digit form by consecutive pairs
(`int(t[0:2],16), int(t[2:4],16), int(t[4:6],16)`); `none` models the
ValueError raised for any other length or for non-hex digits. -/
def parse_hex (token : List Char) : Option (Nat × Nat × Nat) :=
  let t := token.dropWhile (· == '#')
  if t.length = 3 ∨ t.length = 4 then
    match t.take 3 with
    | [c1, c2, c3] =>
      match parseHexNat [c1, c1], parseHexNat [c2, c2], parseHexNat [c3, c3] with
      | some r, some g, some b => some (r, g, b)
      | _, _, _ => none
    | _ => none
  else if t.length = 6 ∨ t.length = 8 then
    match parseHexNat (t.take 2), parseHexNat ((t.drop 2).take 2),
        parseHexNat ((t.drop 4).take 2) with
    | some r, some g, some b => some (r, g, b)
    | _, _, _ => none
  else none

/-- A lowercase hexadecimal digit character (0-9 or a-f). -/
def isLowerHexDigit (c : Char) : Prop :=
  (48 ≤ c.toNat ∧ c.toNat ≤ 57) ∨ (97 ≤ c.toNat ∧ c.toNat ≤ 102)

instance isLowerHexDigit_decidable (c : Char) : Decidable (isLowerHexDigit c) := by
  unfold isLowerHexDigit
  infer_instance

set_option maxRecDepth 4000 in
theorem fmt02x_eval : ∀ n < 256, fmt02x n = [hexChar (n / 16), hexChar (n % 16)] := by
  decide

theorem hexChar_facts : ∀ d < 16,
    hexVal (hexChar d) = some d ∧ isLowerHexDigit (hexChar d) ∧ hexChar d ≠ '#' := by
  decide

theorem hexVal_lt {c : Char} {v : Nat} (h : hexVal c = some v) : v < 16 := by
  unfold hexVal at h
  split_ifs at h with h1 h2 h3
  all_goals injection h with h
  all_goals omega

theorem parseHexNat_pair {a b : Char} {va vb : Nat}
    (ha : hexVal a = some va) (hb : hexVal b = some vb) :
    parseHexNat [a, b] = some (16 * va + vb) := by
  simp [parseHexNat, ha, hb]

theorem parseHexNat_fmt02x {n : Nat} (hn : n < 256) :
    parseHexNat (fmt02x n) = some n := by
  have hdiv : n / 16 < 16 := by omega
  have hmod : n % 16 < 16 := by omega
  have hd := (hexChar_facts (n / 16) hdiv).1
  have hm := (hexChar_facts (n % 16) hmod).1
  rw [fmt02x_eval n hn, parseHexNat_pair hd hm]
  congr 1
  omega

theorem length_ge3_shape {α : Type} (l : List α) (h : 3 ≤ l.length) :
    ∃ a b c rest, l = a :: b :: c :: rest := by
  rcases l with _ | ⟨a, _ | ⟨b, _ | ⟨c, rest⟩⟩⟩
  · simp at h
  · simp at h
  · simp at h
  · exact ⟨a, b, c, rest, rfl⟩

theorem length_ge6_shape {α : Type} (l : List α) (h : 6 ≤ l.length) :
    ∃ a b c d e f rest, l = a :: b :: c :: d :: e :: f :: rest := by
  obtain ⟨a, b, c, r1, h1⟩ := length_ge3_shape l (by omega)
  have hr1 : 3 ≤ r1.length := by
    have := congrArg List.length h1
    simp at this
    omega
  obtain ⟨d, e, f, rest, h2⟩ := length_ge3_shape r1 hr1
  exact ⟨a, b, c, d, e, f, rest, by rw [h1, h2]⟩

theorem parse_hex_some (token : List Char)
    (hlen : (token.dropWhile (· == '#')).length = 3 ∨
            (token.dropWhile (· == '#')).length = 4 ∨
            (token.dropWhile (· == '#')).length = 6 ∨
            (token.dropWhile (· == '#')).length = 8)
    (hhex : ∀ c ∈ token.dropWhile (· == '#'), (hexVal c).isSome) :
    ∃ r g b, parse_hex token = some (r, g, b) ∧ r < 256 ∧ g < 256 ∧ b < 256 := by
  rcases hlen with h | h | h | h
  case inl =>
    obtain ⟨c1, c2, c3, rest, ht⟩ :=
      length_ge3_shape (token.dropWhile (· == '#')) (by omega)
    obtain ⟨v1, e1⟩ := Option.isSome_iff_exists.mp (hhex c1 (by rw [ht]; simp))
    obtain ⟨v2, e2⟩ := Option.isSome_iff_exists.mp (hhex c2 (by rw [ht]; simp))
    obtain ⟨v3, e3⟩ := Option.isSome_iff_exists.mp (hhex c3 (by rw [ht]; simp))
    refine ⟨16 * v1 + v1, 16 * v2 + v2, 16 * v3 + v3, ?_, ?_, ?_, ?_⟩
    · rw [ht] at h
      simp only [parse_hex, ht, h, List.take, true_or, if_pos]
      rw [parseHexNat_pair e1 e1, parseHexNat_pair e2 e2, parseHexNat_pair e3 e3]
    · have := hexVal_lt e1; omega
    · have := hexVal_lt e2; omega
    · have := hexVal_lt e3; omega
  case inr.inl =>
    obtain ⟨c1, c2, c3, rest, ht⟩ :=
      length_ge3_shape (token.dropWhile (· == '#')) (by omega)
    obtain ⟨v1, e1⟩ := Option.isSome_iff_exists.mp (hhex c1 (by rw [ht]; simp))
    obtain ⟨v2, e2⟩ := Option.isSome_iff_exists.mp (hhex c2 (by rw [ht]; simp))
    obtain ⟨v3, e3⟩ := Option.isSome_iff_exists.mp (hhex c3 (by rw [ht]; simp))
    refine ⟨16 * v1 + v1, 16 * v2 + v2, 16 * v3 + v3, ?_, ?_, ?_, ?_⟩
    · rw [ht] at h
      simp only [parse_hex, ht, h, List.take, or_true, if_pos]
      rw [parseHexNat_pair e1 e1, parseHexNat_pair e2 e2, parseHexNat_pair e3 e3]
    · have := hexVal_lt e1; omega
    · have := hexVal_lt e2; omega
    · have := hexVal_lt e3; omega
  case inr.inr.inl =>
    obtain ⟨c1, c2, c3, c4, c5, c6, rest, ht⟩ :=
      length_ge6_shape (token.dropWhile (· == '#')) (by omega)
    obtain ⟨v1, e1⟩ := Option.isSome_iff_exists.mp (hhex c1 (by rw [ht]; simp))
    obtain ⟨v2, e2⟩ := Option.isSome_iff_exists.mp (hhex c2 (by rw [ht]; simp))
    obtain ⟨v3, e3⟩ := Option.isSome_iff_exists.mp (hhex c3 (by rw [ht]; simp))
    obtain ⟨v4, e4⟩ := Option.isSome_iff_exists.mp (hhex c4 (by rw [ht]; simp))
    obtain ⟨v5, e5⟩ := Option.isSome_iff_exists.mp (hhex c5 (by rw [ht]; simp))
    obtain ⟨v6, e6⟩ := Option.isSome_iff_exists.mp (hhex c6 (by rw [ht]; simp))
    refine ⟨16 * v1 + v2, 16 * v3 + v4, 16 * v5 + v6, ?_, ?_, ?_, ?_⟩
    · rw [ht] at h
      simp only [parse_hex, ht, h, List.take, List.drop]
      rw [parseHexNat_pair e1 e2, parseHexNat_pair e3 e4, parseHexNat_pair e5 e6]
      norm_num
    · have := hexVal_lt e1; have := hexVal_lt e2; omega
    · have := hexVal_lt e3; have := hexVal_lt e4; omega
    · have := hexVal_lt e5; have := hexVal_lt e6; omega
  case inr.inr.inr =>
    obtain ⟨c1, c2, c3, c4, c5, c6, rest, ht⟩ :=
      length_ge6_shape (token.dropWhile (· == '#')) (by omega)
    obtain ⟨v1, e1⟩ := Option.isSome_iff_exists.mp (hhex c1 (by rw [ht]; simp))
    obtain ⟨v2, e2⟩ := Option.isSome_iff_exists.mp (hhex c2 (by rw [ht]; simp))
    obtain ⟨v3, e3⟩ := Option.isSome_iff_exists.mp (hhex c3 (by rw [ht]; simp))
    obtain ⟨v4, e4⟩ := Option.isSome_iff_exists.mp (hhex c4 (by rw [ht]; simp))
    obtain ⟨v5, e5⟩ := Option.isSome_iff_exists.mp (hhex c5 (by rw [ht]; simp))
    obtain ⟨v6, e6⟩ := Option.isSome_iff_exists.mp (hhex c6 (by rw [ht]; simp))
    refine ⟨16 * v1 + v2, 16 * v3 + v4, 16 * v5 + v6, ?_, ?_, ?_, ?_⟩
    · rw [ht] at h
      simp only [parse_hex, ht, h, List.take, List.drop]
      rw [parseHexNat_pair e1 e2, parseHexNat_pair e3 e4, parseHexNat_pair e5 e6]
      norm_num
    · have := hexVal_lt e1; have := hexVal_lt e2; omega
    · have := hexVal_lt e3; have := hexVal_lt e4; omega
    · have := hexVal_lt e5; have := hexVal_lt e6; omega
theorem parse_hex_rgb_to_hex {r g b : Nat} (hr : r < 256) (hg : g < 256) (hb : b < 256) :
    parse_hex (rgb_to_hex (r, g, b)) = some (r, g, b) := by
  have hr16 : r / 16 < 16 := by omega
  have hg16 : g / 16 < 16 := by omega
  have hb16 : b / 16 < 16 := by omega
  have e1 := fmt02x_eval r hr
  have e2 := fmt02x_eval g hg
  have e3 := fmt02x_eval b hb
  have hne1 : (hexChar (r / 16) == '#') = false :=
    beq_eq_false_iff_ne.mpr (hexChar_facts (r / 16) hr16).2.2
  have hlist : rgb_to_hex (r, g, b) =
      '#' :: hexChar (r / 16) :: hexChar (r % 16) :: hexChar (g / 16) ::
      hexChar (g % 16) :: hexChar (b / 16) :: [hexChar (b % 16)] := by
    simp [rgb_to_hex, e1, e2, e3]
  have hdrop : (('#' :: hexChar (r / 16) :: hexChar (r % 16) :: hexChar (g / 16) ::
      hexChar (g % 16) :: hexChar (b / 16) :: [hexChar (b % 16)]).dropWhile (· == '#')) =
      hexChar (r / 16) :: hexChar (r % 16) :: hexChar (g / 16) ::
      hexChar (g % 16) :: hexChar (b / 16) :: [hexChar (b % 16)] := by
    simp [List.dropWhile, hne1]
  have p1 : parseHexNat [hexChar (r / 16), hexChar (r % 16)] = some r := by
    rw [← fmt02x_eval r hr]; exact parseHexNat_fmt02x hr
  have p2 : parseHexNat [hexChar (g / 16), hexChar (g % 16)] = some g := by
    rw [← fmt02x_eval g hg]; exact parseHexNat_fmt02x hg
  have p3 : parseHexNat [hexChar (b / 16), hexChar (b % 16)] = some b := by
    rw [← fmt02x_eval b hb]; exact parseHexNat_fmt02x hb
  rw [hlist]
  simp only [parse_hex, hdrop, List.length_cons, List.length_nil]
  norm_num
  rw [p1, p2, p3]

/-- C8: for every hex token whose digit part (after stripping leading '#'
characters) has length 3, 4, 6 or 8 and consists of hexadecimal digits,
`parse_hex` succeeds with a triple of byte values, and `rgb_to_hex` applied to
that triple is the lowercase 6-digit '#'-prefixed form denoting the same RGB
triple: it has length 7, starts with '#', all its remaining characters are
lowercase hex digits, and `parse_hex` maps it back to the same triple. -/
theorem parse_hex_rgb_to_hex_roundtrip (token : List Char)
    (hlen : (token.dropWhile (· == '#')).length = 3 ∨
            (token.dropWhile (· == '#')).length = 4 ∨
            (token.dropWhile (· == '#')).length = 6 ∨
            (token.dropWhile (· == '#')).length = 8)
    (hhex : ∀ c ∈ token.dropWhile (· == '#'), (hexVal c).isSome) :
    ∃ r g b, parse_hex token = some (r, g, b) ∧ r < 256 ∧ g < 256 ∧ b < 256 ∧
      (rgb_to_hex (r, g, b)).length = 7 ∧
      (rgb_to_hex (r, g, b)).head? = some '#' ∧
      (∀ c ∈ (rgb_to_hex (r, g, b)).tail, isLowerHexDigit c) ∧
      parse_hex (rgb_to_hex (r, g, b)) = some (r, g, b) := by
  obtain ⟨r, g, b, hp, hr, hg, hb⟩ := parse_hex_some token hlen hhex
  refine ⟨r, g, b, hp, hr, hg, hb, ?_, ?_, ?_, parse_hex_rgb_to_hex hr hg hb⟩
  · simp [rgb_to_hex, fmt02x_eval r hr, fmt02x_eval g hg, fmt02x_eval b hb]
  · simp [rgb_to_hex]
  · intro c hc
    simp only [rgb_to_hex, fmt02x_eval r hr, fmt02x_eval g hg, fmt02x_eval b hb,
      List.tail_cons, List.cons_append, List.nil_append, List.mem_cons,
      List.mem_singleton, List.not_mem_nil, or_false] at hc
    rcases hc with rfl | rfl | rfl | rfl | rfl | rfl
    · exact (hexChar_facts (r / 16) (by omega)).2.1
    · exact (hexChar_facts (r % 16) (by omega)).2.1
    · exact (hexChar_facts (g / 16) (by omega)).2.1
    · exact (hexChar_facts (g % 16) (by omega)).2.1
    · exact (hexChar_facts (b / 16) (by omega)).2.1
    · exact (hexChar_facts (b % 16) (by omega)).2.1

/-- Witness for C8 at the concrete token "#1a2b3c". -/
theorem parse_hex_rgb_to_hex_roundtrip_witness :
    ∃ r g b, parse_hex (String.toList "#1a2b3c") = some (r, g, b) ∧
      r < 256 ∧ g < 256 ∧ b < 256 ∧
      (rgb_to_hex (r, g, b)).length = 7 ∧
      (rgb_to_hex (r, g, b)).head? = some '#' ∧
      (∀ c ∈ (rgb_to_hex (r, g, b)).tail, isLowerHexDigit c) ∧
      parse_hex (rgb_to_hex (r, g, b)) = some (r, g, b) :=
  parse_hex_rgb_to_hex_roundtrip (String.toList "#1a2b3c") (by decide) (by decide)

/-- Python regex \s for str patterns: the Unicode whitespace characters. -/
def isPySpace (c : Char) : Bool :=
  (9 ≤ c.toNat && c.toNat ≤ 13) || (28 ≤ c.toNat && c.toNat ≤ 31) ||
    c.toNat == 32 || c.toNat == 133 || c.toNat == 160 || c.toNat == 5760 ||
    (8192 ≤ c.toNat && c.toNat ≤ 8202) || c.toNat == 8232 || c.toNat == 8233 ||
    c.toNat == 8239 || c.toNat == 8287 || c.toNat == 12288

/-- A character stripped by `.strip(' \'"')`. -/
def isStripChar (c : Char) : Bool := c == ' ' || c == '\'' || c == '"'

/-- Python `s.strip(' \'"')`: remove those characters from both ends. -/
def pyStrip (s : List Char) : List Char :=
  ((s.dropWhile isStripChar).reverse.dropWhile isStripChar).reverse

/-- A quote character of the optional `["\']` in the @import pattern. -/
def isQuoteChar (c : Char) : Bool := c == '"' || c == '\''

/-- A character the @import group `[^"\')]+` accepts. -/
def isGrpChar (c : Char) : Bool := !(c == '"' || c == '\'' || c == ')')

/-- Attempt of the pattern `url\(([^)]+)\)` (case-insensitive) at the head of
the text: "url(", a nonempty run of non-')' characters, then ')'. Returns the
group and the text after the whole match, where finditer resumes. -/
def tryUrlAt : List Char → Option (List Char × List Char)
  | u :: r :: l :: p :: rest =>
    if (u == 'u' || u == 'U') && (r == 'r' || r == 'R') && (l == 'l' || l == 'L')
        && p == '(' then
      match rest.takeWhile (fun c => !(c == ')')), rest.dropWhile (fun c => !(c == ')')) with
      | [], _ => none
      | _, [] => none
      | g, _ :: rest' => some (g, rest')
    else none
  | _ => none

/-- The scan loop of `re.finditer(r'url\(([^)]+)\)', css_text, re.I)`: try a
match at every position, left to right, resuming after each match
(non-overlapping); structured with fuel, and text length + 1 fuel always
suffices because every step continues strictly later in the text. -/
def scanUrlAux : Nat → List Char → List (List Char)
  | 0, _ => []
  | _+1, [] => []
  | fuel+1, c :: rest =>
    match tryUrlAt (c :: rest) with
    | some (g, rest') => g :: scanUrlAux fuel rest'
    | none => scanUrlAux fuel rest

/-- All groups of `url\(([^)]+)\)` over the text, in match order. -/
def scanUrl (css : List Char) : List (List Char) :=
  scanUrlAux (css.length + 1) css

/-- Match of the literal keyword `@import` (letters case-insensitive) at the
head of the text. -/
def importKeyword : List Char → Option (List Char)
  | a :: i :: m :: p :: o :: r :: t :: rest =>
    if a == '@' && (i == 'i' || i == 'I') && (m == 'm' || m == 'M') &&
        (p == 'p' || p == 'P') && (o == 'o' || o == 'O') && (r == 'r' || r == 'R')
        && (t == 't' || t == 'T') then some rest
    else none
  | _ => none

/-- Match of the optional literal `url(` ("url" case-insensitive) at the head
of the text. -/
def urlOpen : List Char → Option (List Char)
  | u :: r :: l :: p :: rest =>
    if (u == 'u' || u == 'U') && (r == 'r' || r == 'R') && (l == 'l' || l == 'L')
        && p == '(' then some rest
    else none
  | _ => none

/-- The tail `["\']?([^"\')]+)` of the @import pattern at a text position:
greedily consume one quote character if present, then a nonempty run of group
characters; the group and the rest after it. When a quote is present but no
group character follows it, backtracking over the optional quote cannot help,
because a quote character is itself excluded from the group. -/
def quoteGroup (s : List Char) : Option (List Char × List Char) :=
  match s with
  | [] => none
  | c :: rest =>
    if isQuoteChar c then
      match rest.takeWhile isGrpChar, rest.dropWhile isGrpChar with
      | [], _ => none
      | g, rest' => some (g, rest')
    else
      match (c :: rest).takeWhile isGrpChar, (c :: rest).dropWhile isGrpChar with
      | [], _ => none
      | g, rest' => some (g, rest')

/-- The tail `(?:url\()?["\']?([^"\')]+)` with the regex engine's greedy
backtracking: try with `url(` consumed; if the rest then fails, retry without
consuming it (the group may then swallow the characters u, r, l, ( , all of
which `[^"\')]+` accepts). -/
def tailMatch (s : List Char) : Option (List Char × List Char) :=
  match urlOpen s with
  | some s1 =>
    match quoteGroup s1 with
    | some res => some res
    | none => quoteGroup s
  | none => quoteGroup s

/-- One attempted match of `@import\s+(?:url\()?["\']?([^"\')]+)`
(case-insensitive) at the head of the text, with the engine's backtracking
over the greedy `\s+`: the keyword, then the maximal whitespace run (at least
one character); the tail is tried after all of it, and when that fails with at
least two whitespace characters consumed, `\s+` gives back its last character,
which then forms the whole group (the tail having failed means no group
character starts the remainder, so the group stops right after that
whitespace character). A single whitespace character cannot be given back,
`\s+` needing one. Returns the group and the text where finditer resumes. -/
def tryImportAt (l : List Char) : Option (List Char × List Char) :=
  match importKeyword l with
  | none => none
  | some rest0 =>
    if (rest0.takeWhile isPySpace).isEmpty then none
    else
      match tailMatch (rest0.dropWhile isPySpace) with
      | some res => some res
      | none =>
        if 2 ≤ (rest0.takeWhile isPySpace).length then
          some ([(rest0.takeWhile isPySpace).getLastD ' '], rest0.dropWhile isPySpace)
        else none

/-- The scan loop of `re.finditer` for the @import pattern, analogous to
`scanUrlAux`. -/
def scanImportAux : Nat → List Char → List (List Char)
  | 0, _ => []
  | _+1, [] => []
  | fuel+1, c :: rest =>
    match tryImportAt (c :: rest) with
    | some (g, rest') => g :: scanImportAux fuel rest'
    | none => scanImportAux fuel rest

/-- All groups of `@import\s+(?:url\()?["\']?([^"\')]+)` over the text, in
match order. -/
def scanImport (css : List Char) : List (List Char) :=
  scanImportAux (css.length + 1) css

/-- `extract_urls_from_css(css_text, base_url)` (lines 65-75). `join` is
`urllib.parse.urljoin` (external), giving `norm(base_url, raw)`. The first
loop appends the resolved url(...) groups, skipping empty and data:
references; the second loop appends every resolved @import group (the source
applies no skip there); `list(dict.fromkeys(urls))` deduplicates keeping
first occurrences. -/
def extract_urls_from_css (join : String → String → String) (css : List Char)
    (base : String) : List String :=
  let urls1 := (scanUrl css).foldl (fun acc g =>
    if (pyStrip g).isEmpty || strStartsWith (String.mk (pyStrip g)) "data:" then acc
    else acc ++ [join base (String.mk (pyStrip g))]) []
  let urls2 := (scanImport css).foldl (fun acc g =>
    acc ++ [join base (String.mk (pyStrip g))]) urls1
  pyDedup urls2

/-- Modelled from the spec: `extractFromCss(cssText, baseUrl)` scans for
url(...) references and @import statements, skips empty and inlined (data:)
references, resolves the rest against the base URL and deduplicates
preserving first-seen order. The scanning itself is shared with the
implementation model above; the property under test is the skipping (which
the spec states for all references) and the dedup behaviour. -/
def spec_extractFromCss (join : String → String → String) (css : List Char)
    (base : String) : List String :=
  pyDedup ((scanUrl css ++ scanImport css).filterMap (fun g =>
    if (pyStrip g).isEmpty || strStartsWith (String.mk (pyStrip g)) "data:" then none
    else some (join base (String.mk (pyStrip g)))))

/-- The url(...) references the code keeps: resolved, with empty and data:
references skipped. -/
def urlRefs (join : String → String → String) (css : List Char)
    (base : String) : List String :=
  (scanUrl css).filterMap (fun g =>
    if (pyStrip g).isEmpty || strStartsWith (String.mk (pyStrip g)) "data:" then none
    else some (join base (String.mk (pyStrip g))))

/-- The @import references the code keeps: all of them, resolved. -/
def importRefs (join : String → String → String) (css : List Char)
    (base : String) : List String :=
  (scanImport css).map (fun g => join base (String.mk (pyStrip g)))

theorem foldl_filter_app {α : Type} (p : α → Bool) (f : α → String) :
    ∀ (l : List α) (init : List String),
      l.foldl (fun acc g => if p g then acc else acc ++ [f g]) init =
        init ++ l.filterMap (fun g => if p g then none else some (f g)) := by
  intro l
  induction l with
  | nil => intro init; simp
  | cons x xs ih =>
    intro init
    by_cases h : p x
    · simp [h, ih]
    · simp [h, ih]

theorem foldl_app_map {α : Type} (f : α → String) :
    ∀ (l : List α) (init : List String),
      l.foldl (fun acc g => acc ++ [f g]) init = init ++ l.map f := by
  intro l
  induction l with
  | nil => intro init; simp
  | cons x xs ih => intro init; simp [ih]

theorem pyDedupAux_indexOf_mono :
    ∀ (l seen : List String) (u v : String),
      u ∈ pyDedupAux seen l → v ∈ pyDedupAux seen l →
      l.indexOf u < l.indexOf v →
      (pyDedupAux seen l).indexOf u < (pyDedupAux seen l).indexOf v := by
  intro l
  induction l with
  | nil => intro seen u v hu _ _; simp [pyDedupAux] at hu
  | cons x xs ih =>
    intro seen u v hu hv hlt
    have hune : u ≠ v := by
      intro h
      subst h
      omega
    simp only [pyDedupAux] at hu hv ⊢
    split_ifs at hu hv ⊢ with hx
    · have hu' := (pyDedupAux_mem u xs seen).mp hu
      have hv' := (pyDedupAux_mem v xs seen).mp hv
      have hux : x ≠ u := fun h => hu'.2 (h ▸ hx)
      have hvx : x ≠ v := fun h => hv'.2 (h ▸ hx)
      rw [List.indexOf_cons_ne _ hux, List.indexOf_cons_ne _ hvx] at hlt
      exact ih seen u v hu hv (by omega)
    · rcases List.mem_cons.mp hu with rfl | hu'
      · have hvu : v ≠ u := hune.symm
        rcases List.mem_cons.mp hv with h | hv'
        · exact absurd h hvu
        · rw [List.indexOf_cons_self, List.indexOf_cons_ne _ hune]
          omega
      · rcases List.mem_cons.mp hv with rfl | hv'
        · rw [List.indexOf_cons_self] at hlt
          omega
        · have hu'' := (pyDedupAux_mem u xs (x :: seen)).mp hu'
          have hv'' := (pyDedupAux_mem v xs (x :: seen)).mp hv'
          have hux : x ≠ u := fun h => hu''.2 (h ▸ List.mem_cons_self x seen)
          have hvx : x ≠ v := fun h => hv''.2 (h ▸ List.mem_cons_self x seen)
          rw [List.indexOf_cons_ne _ hux, List.indexOf_cons_ne _ hvx] at hlt
          rw [List.indexOf_cons_ne _ hux, List.indexOf_cons_ne _ hvx]
          have := ih (x :: seen) u v hu' hv' (by omega)
          omega

theorem pyDedup_indexOf_mono (l : List String) (u v : String)
    (hu : u ∈ pyDedup l) (hv : v ∈ pyDedup l) (h : l.indexOf u < l.indexOf v) :
    (pyDedup l).indexOf u < (pyDedup l).indexOf v :=
  pyDedupAux_indexOf_mono l [] u v hu hv h

/-- C7 counterexample: for the CSS text "@import data:x" the code resolves
and returns the data: reference discovered via @import (the empty/data: skip
of lines 69-70 applies only to the url(...) loop), while the spec's
extractFromCss skips every data: reference; the resolver `join` is
instantiated with a concrete function returning the raw reference. -/
theorem extract_claimC7_counterexample :
    extract_urls_from_css (fun _ r => r) (String.toList "@import data:x") "b" ≠
      spec_extractFromCss (fun _ r => r) (String.toList "@import data:x") "b" := by
  decide

/-- C7 (amended): `extract_urls_from_css` returns the resolved url(...)
references with empty and data: references skipped, followed by all resolved
@import references (the code applies no empty/data: skip to those),
deduplicated preserving first-seen order: the result is the first-seen
deduplication of that reference list, it is duplicate-free, it contains
exactly the references of that list (each returned exactly once however often
it occurs), and two returned references are ordered by their first
occurrences. -/
theorem extract_urls_from_css_dedup (join : String → String → String)
    (css : List Char) (base : String) :
    extract_urls_from_css join css base =
      pyDedup (urlRefs join css base ++ importRefs join css base) ∧
    (extract_urls_from_css join css base).Nodup ∧
    (∀ u, u ∈ extract_urls_from_css join css base ↔
      u ∈ urlRefs join css base ++ importRefs join css base) ∧
    (∀ u v, u ∈ extract_urls_from_css join css base →
      v ∈ extract_urls_from_css join css base →
      (urlRefs join css base ++ importRefs join css base).indexOf u <
        (urlRefs join css base ++ importRefs join css base).indexOf v →
      (extract_urls_from_css join css base).indexOf u <
        (extract_urls_from_css join css base).indexOf v) := by
  have heq : extract_urls_from_css join css base =
      pyDedup (urlRefs join css base ++ importRefs join css base) := by
    unfold extract_urls_from_css urlRefs importRefs
    simp only [foldl_filter_app, foldl_app_map, List.nil_append]
  refine ⟨heq, ?_, ?_, ?_⟩
  · rw [heq]
    exact pyDedup_nodup _
  · intro u
    rw [heq, pyDedup_mem]
  · intro u v hu hv h
    rw [heq] at hu hv ⊢
    exact pyDedup_indexOf_mono _ u v hu hv h

/-- Witness for the amended C7 theorem on the CSS text
"url(a) url(b) url(a)": the duplicate reference "a" is returned once, before
"b", and membership matches the reference list. -/
theorem extract_urls_from_css_dedup_witness :
    (extract_urls_from_css (fun _ r => r) (String.toList "url(a) url(b) url(a)")
      "base").indexOf "a" <
      (extract_urls_from_css (fun _ r => r) (String.toList "url(a) url(b) url(a)")
        "base").indexOf "b" ∧
    (("a" : String) ∈ extract_urls_from_css (fun _ r => r)
        (String.toList "url(a) url(b) url(a)") "base" ↔
      ("a" : String) ∈ urlRefs (fun _ r => r) (String.toList "url(a) url(b) url(a)")
          "base" ++
        importRefs (fun _ r => r) (String.toList "url(a) url(b) url(a)") "base") :=
  ⟨(extract_urls_from_css_dedup (fun _ r => r)
      (String.toList "url(a) url(b) url(a)") "base").2.2.2 "a" "b"
      (by decide) (by decide) (by decide),
   (extract_urls_from_css_dedup (fun _ r => r)
      (String.toList "url(a) url(b) url(a)") "base").2.2.1 "a"⟩
